import Mathlib

/-!
Verification of the asynchronous event-wait-handle subsystem and helper
utilities of the `@leosingleton/commonlibs` library.

The concrete classes `AsyncManualResetEvent` (src) and the helpers
`using` / `usingAsync` / `Unmangler.unmangleObject` (src) are embedded from
the TypeScript sources.  The abstract base `AsyncEventWaitHandle`,
`AsyncAutoResetEvent`, `AsyncTimerEvent` and the `deepCopy` utility are not
part of the provided sources (only their callers and tests are), so they are
modelled from the specification, as marked on each definition.
-/

namespace CommonLibs

/-- Modelled from the spec: the state of an `AsyncEventWaitHandle`
(`AsyncEventWaitHandle.ts` is not among the provided sources).
`{ signaled : bool, autoReset : bool, waiters : ordered sequence }`; waiters
are identified by numeric ids, head of the list = first enqueued (FIFO). -/
structure EventWaitHandle where
  autoReset : Bool
  signaled : Bool
  waiters : List Nat
deriving DecidableEq, Repr

namespace EventWaitHandle

/-- Modelled from the spec: construction records the reset policy and the
explicit initial signaled state; no waiter is queued initially. -/
def new (autoReset initialState : Bool) : EventWaitHandle :=
  ⟨autoReset, initialState, []⟩

/-- Modelled from the spec: `isSet()` is a read-only snapshot of `signaled`. -/
def isSet (h : EventWaitHandle) : Bool := h.signaled

/-- Modelled from the spec: `reset()` sets `signaled = false`; no effect on
already-resumed waiters. -/
def reset (h : EventWaitHandle) : EventWaitHandle :=
  { h with signaled := false }

/-- Modelled from the spec: `set()` transitions `signaled` true and attempts
release.  Auto-reset: release exactly the head waiter (if any) and revert
`signaled` to false; otherwise stay signaled.  Manual-reset: release all
queued waiters in FIFO order and stay signaled.  The second component is the
list of released waiters, in resumption order. -/
def setEvent (h : EventWaitHandle) : EventWaitHandle × List Nat :=
  if h.autoReset then
    match h.waiters with
    | [] => ({ h with signaled := true }, [])
    | w :: rest => ({ h with signaled := false, waiters := rest }, [w])
  else
    ({ h with signaled := true, waiters := [] }, h.waiters)

/-- Modelled from the spec: `wait()` resumes immediately when the handle is
signaled (consuming the signal when auto-reset), otherwise enqueues the
caller at the tail of the waiter queue and suspends.  The boolean is `true`
when the wait resolved immediately, `false` when the caller suspended. -/
def waitAsync (h : EventWaitHandle) (wid : Nat) : EventWaitHandle × Bool :=
  if h.signaled then
    (if h.autoReset then { h with signaled := false } else h, true)
  else
    ({ h with waiters := h.waiters ++ [wid] }, false)

/-- Enqueue a sequence of `wait()` calls, in order. -/
def enqueueAll : EventWaitHandle → List Nat → EventWaitHandle
  | h, [] => h
  | h, w :: rest => enqueueAll (waitAsync h w).1 rest

/-- Iterate `set()` `k` times, collecting all released waiters in order. -/
def setN : Nat → EventWaitHandle → EventWaitHandle × List Nat
  | 0, h => (h, [])
  | k + 1, h =>
    let r1 := setEvent h
    let r2 := setN k r1.1
    (r2.1, r1.2 ++ r2.2)

end EventWaitHandle

/-- From the source (`AsyncManualResetEvent`): constructed with an explicit
initial signaled state that defaults to `false`; delegates to the base with
`autoReset = false`. -/
def AsyncManualResetEvent (initialState : Bool := false) : EventWaitHandle :=
  EventWaitHandle.new false initialState

/-- Modelled from the spec: `AsyncAutoResetEvent` delegates to the base with
`autoReset = true` (`AsyncAutoResetEvent.ts` is not among the provided
sources). -/
def AsyncAutoResetEvent (initialState : Bool) : EventWaitHandle :=
  EventWaitHandle.new true initialState

/-- An operation a task may perform on a wait handle. -/
inductive Op where
  | wait (wid : Nat)
  | set
  | reset
deriving DecidableEq, Repr

/-- Apply a single operation to a handle (discarding resumption results). -/
def applyOp (h : EventWaitHandle) : Op → EventWaitHandle
  | .wait wid => (EventWaitHandle.waitAsync h wid).1
  | .set => (EventWaitHandle.setEvent h).1
  | .reset => EventWaitHandle.reset h

/-- Apply a sequence of operations, left to right. -/
def applyOps (h : EventWaitHandle) : List Op → EventWaitHandle
  | [] => h
  | op :: rest => applyOps (applyOp h op) rest

/-- Spec invariant: an auto-reset handle never holds a pending signal while a
waiter is queued. -/
abbrev AutoResetInv (h : EventWaitHandle) : Prop :=
  h.autoReset = true → h.signaled = true → h.waiters = []

namespace EventWaitHandle

theorem waitAsync_not_signaled (h : EventWaitHandle) (wid : Nat)
    (hs : h.signaled = false) :
    waitAsync h wid = ({ h with waiters := h.waiters ++ [wid] }, false) := by
  simp [waitAsync, hs]

theorem enqueueAll_not_signaled (ws : List Nat) (h : EventWaitHandle)
    (hs : h.signaled = false) :
    enqueueAll h ws = { h with waiters := h.waiters ++ ws } := by
  induction ws generalizing h with
  | nil => simp [enqueueAll]
  | cons w rest ih =>
    rw [enqueueAll, waitAsync_not_signaled h w hs]
    show ({ h with waiters := h.waiters ++ [w] } : EventWaitHandle).enqueueAll rest = _
    rw [ih { h with waiters := h.waiters ++ [w] } hs]
    simp

/-- On a manual-reset handle that is signaled, no non-`reset` operation
clears the signal. -/
theorem applyOps_manual_signaled (ops : List Op) (h : EventWaitHandle)
    (hm : h.autoReset = false) (hs : h.signaled = true)
    (hr : Op.reset ∉ ops) :
    (applyOps h ops).signaled = true ∧ (applyOps h ops).autoReset = false := by
  induction ops generalizing h with
  | nil => exact ⟨hs, hm⟩
  | cons op rest ih =>
    have hop : op ≠ Op.reset := fun he => hr (he ▸ List.mem_cons_self op rest)
    have hrest : Op.reset ∉ rest := fun he => hr (List.mem_cons_of_mem op he)
    match op with
    | .wait wid =>
      rw [applyOps]
      exact ih _ (by simp [applyOp, waitAsync, hs, hm]) (by simp [applyOp, waitAsync, hs, hm]) hrest
    | .set =>
      rw [applyOps]
      exact ih _ (by simp [applyOp, setEvent, hm]) (by simp [applyOp, setEvent, hm]) hrest
    | .reset => exact absurd rfl hop

/-- Iterated `set()` on an unsignaled auto-reset handle releases one queued
waiter per call, head first. -/
theorem setN_autoReset (k : Nat) (h : EventWaitHandle)
    (ha : h.autoReset = true) (hs : h.signaled = false)
    (hk : k ≤ h.waiters.length) :
    setN k h = (⟨true, false, h.waiters.drop k⟩, h.waiters.take k) := by
  induction k generalizing h with
  | zero =>
    rcases h with ⟨a, s, ws⟩
    simp_all [setN]
  | succ k ih =>
    rcases h with ⟨a, s, ws⟩
    subst ha hs
    match ws, hk with
    | w :: rest, hk =>
      rw [setN]
      have h1 : setEvent ⟨true, false, w :: rest⟩ = (⟨true, false, rest⟩, [w]) := by
        simp [setEvent]
      rw [h1, ih ⟨true, false, rest⟩ rfl rfl (by simpa using Nat.le_of_succ_le_succ hk)]
      simp

end EventWaitHandle

/-- C1: on a `ManualResetEvent`, a single `set()` after any sequence of
enqueued `wait()` calls releases all queued waiters in enqueue (FIFO) order,
and the handle stays signaled through any further non-`reset` operations. -/
theorem manualResetEvent_set_releases_all_fifo (ws : List Nat) :
    (EventWaitHandle.setEvent (EventWaitHandle.enqueueAll (AsyncManualResetEvent false) ws)).2 = ws ∧
    (EventWaitHandle.setEvent (EventWaitHandle.enqueueAll (AsyncManualResetEvent false) ws)).1.signaled = true ∧
    (∀ ops : List Op, Op.reset ∉ ops →
      (applyOps (EventWaitHandle.setEvent (EventWaitHandle.enqueueAll (AsyncManualResetEvent false) ws)).1 ops).signaled = true) ∧
    (EventWaitHandle.reset (EventWaitHandle.setEvent (EventWaitHandle.enqueueAll (AsyncManualResetEvent false) ws)).1).signaled = false := by
  have he : EventWaitHandle.enqueueAll (AsyncManualResetEvent false) ws =
      ⟨false, false, ws⟩ := by
    rw [EventWaitHandle.enqueueAll_not_signaled ws _ rfl]
    rfl
  rw [he]
  have hset : EventWaitHandle.setEvent ⟨false, false, ws⟩ = (⟨false, true, []⟩, ws) := by
    simp [EventWaitHandle.setEvent]
  rw [hset]
  refine ⟨rfl, rfl, ?_, rfl⟩
  intro ops hr
  exact (EventWaitHandle.applyOps_manual_signaled ops ⟨false, true, []⟩ rfl rfl hr).1

theorem manualResetEvent_set_releases_all_fifo_witness :
    (EventWaitHandle.setEvent (EventWaitHandle.enqueueAll (AsyncManualResetEvent false) [4, 7, 9])).2 = [4, 7, 9] ∧
    (applyOps (EventWaitHandle.setEvent (EventWaitHandle.enqueueAll (AsyncManualResetEvent false) [4, 7, 9])).1 [Op.wait 5, Op.set]).signaled = true :=
  ⟨(manualResetEvent_set_releases_all_fifo [4, 7, 9]).1,
   (manualResetEvent_set_releases_all_fifo [4, 7, 9]).2.2.1 [Op.wait 5, Op.set] (by decide)⟩

/-- C2: on an unsignaled auto-reset handle with waiters `w :: rest`, one
`set()` releases exactly the head `w` and reverts `signaled` to false, and
`k` iterated `set()` calls release exactly the first `k` waiters in order,
leaving the rest queued. -/
theorem autoResetEvent_set_releases_head (h : EventWaitHandle) (w : Nat)
    (ws : List Nat) (k : Nat) (ha : h.autoReset = true)
    (hs : h.signaled = false) (hw : h.waiters = w :: ws)
    (hk : k ≤ ws.length + 1) :
    EventWaitHandle.setEvent h = (⟨true, false, ws⟩, [w]) ∧
    EventWaitHandle.setN k h = (⟨true, false, (w :: ws).drop k⟩, (w :: ws).take k) := by
  constructor
  · rcases h with ⟨a, s, qs⟩
    subst ha hs hw
    simp [EventWaitHandle.setEvent]
  · rw [EventWaitHandle.setN_autoReset k h ha hs (by rw [hw]; simpa using hk), hw]

theorem autoResetEvent_set_releases_head_witness :
    EventWaitHandle.setEvent ⟨true, false, [3, 1, 2]⟩ = (⟨true, false, [1, 2]⟩, [3]) ∧
    EventWaitHandle.setN 2 ⟨true, false, [3, 1, 2]⟩ = (⟨true, false, [2]⟩, [3, 1]) :=
  autoResetEvent_set_releases_head ⟨true, false, [3, 1, 2]⟩ 3 [1, 2] 2 rfl rfl rfl (by decide)

/-- C3: `isSet()` immediately after construction equals the constructor's
`initialState` argument for both variants, the `AsyncManualResetEvent`
constructor defaults `initialState` to `false`, and construction only
records the flags (the waiter queue starts empty). -/
theorem isSet_after_construction (b : Bool) :
    (AsyncManualResetEvent b).isSet = b ∧
    (AsyncAutoResetEvent b).isSet = b ∧
    (AsyncManualResetEvent : EventWaitHandle) = AsyncManualResetEvent false ∧
    AsyncManualResetEvent b = ⟨false, b, []⟩ ∧
    AsyncAutoResetEvent b = ⟨true, b, []⟩ :=
  ⟨rfl, rfl, rfl, rfl, rfl⟩

theorem isSet_after_construction_witness :
    (AsyncManualResetEvent true).isSet = true ∧
    (AsyncAutoResetEvent false).isSet = false ∧
    (AsyncManualResetEvent : EventWaitHandle) = AsyncManualResetEvent false :=
  ⟨(isSet_after_construction true).1, (isSet_after_construction false).2.1,
   (isSet_after_construction true).2.2.1⟩

/-- C4: the invariant "auto-reset and signaled implies no queued waiter"
holds after construction and is preserved by every operation (`wait`, `set`,
`reset`), singly and in sequence. -/
theorem autoResetInv_preserved :
    (∀ a b : Bool, AutoResetInv (EventWaitHandle.new a b)) ∧
    (∀ (h : EventWaitHandle) (op : Op), AutoResetInv h → AutoResetInv (applyOp h op)) ∧
    (∀ (h : EventWaitHandle) (ops : List Op), AutoResetInv h → AutoResetInv (applyOps h ops)) := by
  have hstep : ∀ (h : EventWaitHandle) (op : Op), AutoResetInv h → AutoResetInv (applyOp h op) := by
    intro h op hinv
    rcases h with ⟨a, s, qs⟩
    cases op with
    | wait wid =>
      cases s with
      | true =>
        cases a with
        | true =>
          intro _ hcon
          simp [applyOp, EventWaitHandle.waitAsync] at hcon
        | false =>
          intro h1 _
          simp [applyOp, EventWaitHandle.waitAsync] at h1
      | false =>
        intro _ hcon
        simp [applyOp, EventWaitHandle.waitAsync] at hcon
    | set =>
      cases a with
      | false =>
        intro h1 _
        simp [applyOp, EventWaitHandle.setEvent] at h1
      | true =>
        cases qs with
        | nil =>
          intro _ _
          simp [applyOp, EventWaitHandle.setEvent]
        | cons w rest =>
          intro _ hcon
          simp [applyOp, EventWaitHandle.setEvent] at hcon
    | reset =>
      intro _ hcon
      simp [applyOp, EventWaitHandle.reset] at hcon
  refine ⟨?_, hstep, ?_⟩
  · intro a b ha hb
    rfl
  · intro h ops hinv
    induction ops generalizing h with
    | nil => exact hinv
    | cons op rest ih => exact ih _ (hstep h op hinv)

theorem autoResetInv_preserved_witness :
    AutoResetInv (applyOps ⟨true, true, []⟩ [Op.set, Op.wait 2, Op.wait 3, Op.set]) :=
  autoResetInv_preserved.2.2 ⟨true, true, []⟩ [Op.set, Op.wait 2, Op.wait 3, Op.set]
    (fun _ _ => rfl)

/-- C5: an `AutoResetEvent` constructed with `initialState = true`: the first
`wait()` resolves immediately and reverts the handle to unsignaled, and a
second `wait()` (no intervening `set()`) suspends. -/
theorem autoResetEvent_pending_signal_consumed :
    (EventWaitHandle.waitAsync (AsyncAutoResetEvent true) 0).2 = true ∧
    (EventWaitHandle.waitAsync (AsyncAutoResetEvent true) 0).1.signaled = false ∧
    (EventWaitHandle.waitAsync (EventWaitHandle.waitAsync (AsyncAutoResetEvent true) 0).1 1).2 = false ∧
    (EventWaitHandle.waitAsync (EventWaitHandle.waitAsync (AsyncAutoResetEvent true) 0).1 1).1.waiters = [1] := by
  decide

/-- C6: on a manual-reset handle, `reset()` is idempotent (both calls leave
`signaled = false`) and, with no queued waiters, `set()` is idempotent (both
calls leave `signaled = true`); both are total functions in this model. -/
theorem manualResetEvent_idempotence (h : EventWaitHandle)
    (hm : h.autoReset = false) :
    (EventWaitHandle.reset h).signaled = false ∧
    (EventWaitHandle.reset (EventWaitHandle.reset h)).signaled = false ∧
    (h.waiters = [] →
      (EventWaitHandle.setEvent h).1.signaled = true ∧
      (EventWaitHandle.setEvent (EventWaitHandle.setEvent h).1).1.signaled = true ∧
      (EventWaitHandle.setEvent (EventWaitHandle.setEvent h).1).1 = (EventWaitHandle.setEvent h).1) := by
  refine ⟨rfl, rfl, fun hw => ?_⟩
  rcases h with ⟨a, s, qs⟩
  subst hm hw
  simp [EventWaitHandle.setEvent]

theorem manualResetEvent_idempotence_witness :
    (EventWaitHandle.reset ⟨false, true, []⟩).signaled = false ∧
    (EventWaitHandle.setEvent (EventWaitHandle.setEvent ⟨false, true, []⟩).1).1.signaled = true :=
  ⟨(manualResetEvent_idempotence ⟨false, true, []⟩ rfl).1,
   ((manualResetEvent_idempotence ⟨false, true, []⟩ rfl).2.2 rfl).2.1⟩

/-- Modelled from the spec: the `TimerEvent` state machine
`Idle → Armed → (Fired → Armed if repeat | Fired → Idle if not) → Stopped`. -/
inductive TimerState where
  | Idle
  | Armed
  | Stopped
deriving DecidableEq, Repr

/-- Modelled from the spec: `AsyncTimerEvent` (not among the provided
sources) composes an auto-reset handle with a one-shot or repeating timer.
`remainingMs` is the time left until the next firing while `Armed`. -/
structure TimerEvent where
  handle : EventWaitHandle
  intervalMs : Nat
  repeating : Bool
  state : TimerState
  remainingMs : Nat
deriving DecidableEq, Repr

namespace TimerEvent

/-- Modelled from the spec: construction arms a timer for `intervalMs`
milliseconds over an auto-reset handle. -/
def new (intervalMs : Nat) (repeating : Bool := false)
    (initialState : Bool := false) : TimerEvent :=
  { handle := EventWaitHandle.new true initialState
    intervalMs := intervalMs
    repeating := repeating
    state := TimerState.Armed
    remainingMs := intervalMs }

/-- Modelled from the spec: on timer expiry, call the underlying auto-reset
`set()`, then re-arm for another `intervalMs` when repeating, otherwise
transition to `Idle`. -/
def timerFire (t : TimerEvent) : TimerEvent × List Nat :=
  let r := EventWaitHandle.setEvent t.handle
  if t.repeating then
    ({ t with handle := r.1, state := TimerState.Armed, remainingMs := t.intervalMs }, r.2)
  else
    ({ t with handle := r.1, state := TimerState.Idle, remainingMs := 0 }, r.2)

/-- Advance time by one millisecond, firing the timer when it expires. -/
def tick (t : TimerEvent) : TimerEvent × List Nat :=
  match t.state with
  | TimerState.Armed =>
    if t.remainingMs ≤ 1 then timerFire t
    else ({ t with remainingMs := t.remainingMs - 1 }, [])
  | _ => (t, [])

/-- Advance time by `n` milliseconds, collecting released waiters in order. -/
def advance : TimerEvent → Nat → TimerEvent × List Nat
  | t, 0 => (t, [])
  | t, n + 1 =>
    let r1 := tick t
    let r2 := advance r1.1 n
    (r2.1, r1.2 ++ r2.2)

/-- Modelled from the spec: `wait()` on a `TimerEvent` is `wait()` on its
embedded auto-reset handle. -/
def waitAsync (t : TimerEvent) (wid : Nat) : TimerEvent × Bool :=
  let r := EventWaitHandle.waitAsync t.handle wid
  ({ t with handle := r.1 }, r.2)

/-- Iterate `k` timer firings back to back, collecting released waiters. -/
def fireN : Nat → TimerEvent → TimerEvent × List Nat
  | 0, t => (t, [])
  | k + 1, t =>
    let r1 := timerFire t
    let r2 := fireN k r1.1
    (r2.1, r1.2 ++ r2.2)

/-- Firings over an empty waiter queue release nobody and leave the
auto-reset handle holding a single boolean pending signal. -/
theorem fireN_empty (k : Nat) (t : TimerEvent)
    (ha : t.handle.autoReset = true) (hw : t.handle.waiters = []) :
    (fireN k t).2 = [] ∧
    (fireN k t).1.handle = ⟨true, t.handle.signaled || decide (1 ≤ k), []⟩ := by
  induction k generalizing t with
  | zero =>
    refine ⟨rfl, ?_⟩
    rcases t with ⟨⟨a, s, ws⟩, i, r, st, m⟩
    simp only at ha hw
    subst ha hw
    simp [fireN]
  | succ k ih =>
    have hset : EventWaitHandle.setEvent t.handle = (⟨true, true, []⟩, []) := by
      rcases t with ⟨⟨a, s, ws⟩, i, r, st, m⟩
      simp only at ha hw
      subst ha hw
      simp [EventWaitHandle.setEvent]
    have hfire : (timerFire t).1.handle = ⟨true, true, []⟩ ∧ (timerFire t).2 = [] := by
      cases hr : t.repeating <;> simp [timerFire, hset, hr]
    obtain ⟨hf1, hf2⟩ := hfire
    obtain ⟨g1, g2⟩ := ih (timerFire t).1 (by rw [hf1]) (by rw [hf1])
    refine ⟨?_, ?_⟩
    · show ((timerFire t).2 ++ (fireN k (timerFire t).1).2) = []
      rw [hf2, g1]
      rfl
    · show (fireN k (timerFire t).1).1.handle = _
      rw [g2, hf1]
      simp

/-- Once the timer is `Idle` it never fires again. -/
theorem advance_idle (t : TimerEvent) (h : t.state = TimerState.Idle)
    (n : Nat) : advance t n = (t, []) := by
  induction n with
  | zero => rfl
  | succ n ih =>
    have ht : tick t = (t, []) := by rw [tick, h]
    show ((advance (tick t).1 n).1, (tick t).2 ++ (advance (tick t).1 n).2) = (t, [])
    rw [ht]
    simpa using ih

end TimerEvent

/-- C7: any number `k ≥ 1` of timer firings over an empty waiter queue
collapse into a single boolean pending signal: no waiter is released by the
firings, the handle ends signaled with no queued waiter, a first `wait()`
then resolves immediately (consuming the signal) and a second `wait()`
suspends — one immediate wait, not `k`. -/
theorem timerEvent_firings_coalesce (k : Nat) (t : TimerEvent)
    (ha : t.handle.autoReset = true) (hw : t.handle.waiters = [])
    (hk : 1 ≤ k) :
    (TimerEvent.fireN k t).2 = [] ∧
    (TimerEvent.fireN k t).1.handle = ⟨true, true, []⟩ ∧
    (TimerEvent.waitAsync (TimerEvent.fireN k t).1 0).2 = true ∧
    (TimerEvent.waitAsync (TimerEvent.fireN k t).1 0).1.handle.signaled = false ∧
    (TimerEvent.waitAsync (TimerEvent.waitAsync (TimerEvent.fireN k t).1 0).1 1).2 = false := by
  obtain ⟨h1, h2⟩ := TimerEvent.fireN_empty k t ha hw
  have hs : (t.handle.signaled || decide (1 ≤ k)) = true := by simp [hk]
  rw [hs] at h2
  refine ⟨h1, h2, ?_, ?_, ?_⟩ <;>
    simp [TimerEvent.waitAsync, EventWaitHandle.waitAsync, h2]

theorem timerEvent_firings_coalesce_witness :
    (TimerEvent.fireN 3 (TimerEvent.new 100 true false)).2 = [] ∧
    (TimerEvent.waitAsync (TimerEvent.fireN 3 (TimerEvent.new 100 true false)).1 0).2 = true ∧
    (TimerEvent.waitAsync (TimerEvent.waitAsync (TimerEvent.fireN 3 (TimerEvent.new 100 true false)).1 0).1 1).2 = false := by
  have h := timerEvent_firings_coalesce 3 (TimerEvent.new 100 true false) rfl rfl (by decide)
  exact ⟨h.1, h.2.2.1, h.2.2.2.2⟩

/-- The C8 scenario: a non-repeating 1000 ms timer with a `wait()` issued at
construction time (waiter id 0). -/
def timerScenario : TimerEvent :=
  (TimerEvent.waitAsync (TimerEvent.new 1000 false false) 0).1

/-- The C8 scenario after 900 ms have elapsed. -/
def timerAt900 : TimerEvent := (TimerEvent.advance timerScenario 900).1

/-- The C8 scenario after 1100 ms have elapsed. -/
def timerAt1100 : TimerEvent := (TimerEvent.advance timerAt900 200).1

set_option maxRecDepth 400000 in
/-- C8: for a non-repeating `TimerEvent(intervalMs = 1000)` with a `wait()`
issued at construction: the wait suspends, it is still unresolved after
900 ms, the further 200 ms resolve it exactly once, and the timer goes
`Idle` and never fires again. -/
theorem timerEvent_single_shot :
    (TimerEvent.waitAsync (TimerEvent.new 1000 false false) 0).2 = false ∧
    (TimerEvent.advance timerScenario 900).2 = [] ∧
    (TimerEvent.advance timerAt900 200).2 = [0] ∧
    timerAt1100.state = TimerState.Idle ∧
    ∀ n, TimerEvent.advance timerAt1100 n = (timerAt1100, []) :=
  ⟨by decide, by decide, by decide, by decide,
   fun n => TimerEvent.advance_idle timerAt1100 (by decide) n⟩

/-- From the source (`IDisposable`): an object with a `dispose()` method; we
track how many times `dispose()` has been invoked on it. -/
structure Disposable where
  disposeCount : Nat
deriving DecidableEq, Repr

/-- `dispose()` on a `Disposable`. -/
def dispose (o : Disposable) : Disposable :=
  { o with disposeCount := o.disposeCount + 1 }

/-- A JavaScript `try { body } finally { finalizer }` block: the body runs
first, either completing normally (`none`) or throwing (`some e`); the
finalizer then runs on both paths, and the body's outcome is propagated to
the caller. -/
def tryFinally {σ ε : Type} (body : σ → σ × Option ε) (finalizer : σ → σ)
    (s : σ) : σ × Option ε :=
  let r := body s
  (finalizer r.1, r.2)

/-- From the source: `using(obj, lambda)` runs the lambda in a `try` block
and disposes `obj` in the `finally`.  A lambda is modelled as a state
transformer on the object it receives, returning `none` on normal return or
`some e` when it throws `e`.  The source's `if (obj)` truthiness guard holds
here because `obj` is an actual object.  (`using` is a reserved word in
Lean, hence the name.) -/
def usingBlock {ε : Type} (obj : Disposable)
    (lambda : Disposable → Disposable × Option ε) : Disposable × Option ε :=
  tryFinally lambda dispose obj

/-- From the source: `usingAsync(obj, lambda)` awaits the async lambda in a
`try` block and disposes `obj` in the `finally`; a rejected promise is the
exception raised at the `await`. -/
def usingAsyncBlock {ε : Type} (obj : Disposable)
    (lambda : Disposable → Disposable × Option ε) : Disposable × Option ε :=
  tryFinally lambda dispose obj

/-- C9: `using` and `usingAsync` call `dispose()` on the object exactly once
on every execution path: whenever the lambda does not itself dispose the
object, the returned object has been disposed exactly once — both when the
lambda returns normally and when it throws — and the lambda's outcome
(normal return, or the original exception) is propagated unchanged to the
caller after the dispose. -/
theorem using_disposes_exactly_once {ε : Type} (obj : Disposable)
    (lambda : Disposable → Disposable × Option ε)
    (hl : (lambda obj).1.disposeCount = obj.disposeCount) :
    (usingBlock obj lambda).1.disposeCount = obj.disposeCount + 1 ∧
    (usingBlock obj lambda).2 = (lambda obj).2 ∧
    (usingAsyncBlock obj lambda).1.disposeCount = obj.disposeCount + 1 ∧
    (usingAsyncBlock obj lambda).2 = (lambda obj).2 := by
  refine ⟨?_, rfl, ?_, rfl⟩ <;>
    simp [usingBlock, usingAsyncBlock, tryFinally, dispose, hl]

theorem using_disposes_exactly_once_witness :
    (usingBlock ⟨0⟩ (fun o => (o, some "boom"))).1.disposeCount = 1 ∧
    (usingBlock ⟨0⟩ (fun o => (o, some "boom"))).2 = some "boom" ∧
    (usingAsyncBlock ⟨0⟩ (fun o => (o, (none : Option String)))).1.disposeCount = 1 ∧
    (usingAsyncBlock ⟨0⟩ (fun o => (o, (none : Option String)))).2 = none := by
  have h1 := using_disposes_exactly_once ⟨0⟩ (fun o => (o, some "boom")) rfl
  have h2 := using_disposes_exactly_once ⟨0⟩ (fun o => (o, (none : Option String))) rfl
  exact ⟨h1.1, h1.2.1, h2.2.2.1, h2.2.2.2⟩

/-- A JavaScript value: a primitive, or a reference to a heap object. -/
inductive JSValue where
  | null
  | boolean (b : Bool)
  | num (n : Int)
  | str (s : String)
  | ref (a : Nat)
deriving DecidableEq, Repr

/-- A heap object: a plain object (ordered property list, as JavaScript
enumerates string keys in insertion order) or an array. -/
inductive JSObject where
  | obj (props : List (String × JSValue))
  | arr (elems : List JSValue)
deriving DecidableEq, Repr

/-- The heap: objects addressed by index; object identity is the address. -/
abbrev Heap := List JSObject

/-- Read a property from an ordered property list. -/
def getProp : List (String × JSValue) → String → Option JSValue
  | [], _ => none
  | (k, v) :: rest, name => if k = name then some v else getProp rest name

/-- Write a property: overwrite in place when the key exists (JavaScript
keeps the original insertion position), append otherwise. -/
def putProp : List (String × JSValue) → String → JSValue → List (String × JSValue)
  | [], name, v => [(name, v)]
  | (k, w) :: rest, name, v =>
    if k = name then (k, v) :: rest else (k, w) :: putProp rest name v

/-- Delete a property (the JavaScript `delete` operator). -/
def removeProp (ps : List (String × JSValue)) (name : String) :
    List (String × JSValue) :=
  ps.filter (fun kv => kv.1 ≠ name)

/-- `o[name] = v` on the object stored at address `a`. -/
def heapSetProp (h : Heap) (a : Nat) (name : String) (v : JSValue) : Heap :=
  match h[a]? with
  | some (JSObject.obj ps) => h.set a (JSObject.obj (putProp ps name v))
  | _ => h

/-- `delete o[name]` on the object stored at address `a`. -/
def heapDelProp (h : Heap) (a : Nat) (name : String) : Heap :=
  match h[a]? with
  | some (JSObject.obj ps) => h.set a (JSObject.obj (removeProp ps name))
  | _ => h

/- From the source: the `UnmanglerFlags` const enum. -/
namespace UnmanglerFlags

def PreserveOriginal : Nat := 1

def Recurse : Nat := 2

def RecurseAll : Nat := 6

def NoClone : Nat := 8

end UnmanglerFlags

/-- From the source (`MangledPropertyMap`): map of mangled property names to
unmangled property names; lookup follows JavaScript property access,
returning `none` for an absent key. -/
def lookupName : List (String × String) → String → Option String
  | [], _ => none
  | (k, v) :: rest, name => if k = name then some v else lookupName rest name

/-- Modelled from the spec: the deep-copy utility (`src/logic/DeepCopy`, not
among the provided sources).  Primitives are returned unchanged; objects and
arrays are recursively copied into fresh heap cells, so the copy shares no
cell with the original.  The recursion is fuelled to stay total; `none`
models fuel exhaustion (a cyclic object) or a dangling reference. -/
def deepCopy : Nat → Heap → JSValue → Option (Heap × JSValue)
  | 0, _, _ => none
  | fuel + 1, heap, JSValue.ref a =>
    match heap[a]? with
    | none => none
    | some (JSObject.arr elems) => do
      let r ← elems.foldlM (fun (acc : Heap × List JSValue) e => do
          let s ← deepCopy fuel acc.1 e
          pure (s.1, acc.2 ++ [s.2])) (heap, [])
      pure (r.1 ++ [JSObject.arr r.2], JSValue.ref r.1.length)
    | some (JSObject.obj ps) => do
      let r ← ps.foldlM (fun (acc : Heap × List (String × JSValue)) kv => do
          let s ← deepCopy fuel acc.1 kv.2
          pure (s.1, acc.2 ++ [(kv.1, s.2)])) (heap, [])
      pure (r.1 ++ [JSObject.obj r.2], JSValue.ref r.1.length)
  | _ + 1, heap, v => pure (heap, v)

/-- One iteration of the `for (const mangledName in o)` loop of
`Unmangler.unmangleObject`, on the object at address `a`: read the current
value of the key, add the unmangled property and delete the mangled one when
the map holds a (truthy) different name, and recurse per the `Recurse` /
`RecurseAll` flags.  `recur` is the recursive `unmangleObject` call (whose
`properties` and `flags` arguments the source passes through unchanged). -/
def unmangleKey (recur : Heap → JSValue → Option (Heap × JSValue)) (a : Nat)
    (props : List (String × String)) (flags : Nat) (heap : Heap)
    (k : String) : Option Heap :=
  match heap[a]? with
  | some (JSObject.obj cur) =>
    match getProp cur k with
    | some value =>
      match lookupName props k with
      | some u =>
        if u = "" then
          if flags &&& UnmanglerFlags.RecurseAll == UnmanglerFlags.RecurseAll then do
            let r ← recur heap value
            pure r.1
          else pure heap
        else
          let h1 :=
            if k = u then heap
            else
              let h2 := heapSetProp heap a u value
              if flags &&& UnmanglerFlags.PreserveOriginal == 0 then
                heapDelProp h2 a k
              else h2
          if flags &&& UnmanglerFlags.Recurse != 0 then do
            let r ← recur h1 value
            pure r.1
          else pure h1
      | none =>
        if flags &&& UnmanglerFlags.RecurseAll == UnmanglerFlags.RecurseAll then do
          let r ← recur heap value
          pure r.1
        else pure heap
    | none => pure heap
  | _ => pure heap

/-- The body of `Unmangler.unmangleObject` after the optional clone: recurse
on the elements of an array, or walk the (snapshotted) keys of a plain
object; primitives are left alone.  Returns the (possibly mutated) heap and
the `object` parameter itself. -/
def unmangleBody (recur : Heap → JSValue → Option (Heap × JSValue))
    (heap : Heap) (v : JSValue) (props : List (String × String))
    (flags : Nat) : Option (Heap × JSValue) :=
  match v with
  | JSValue.ref a =>
    match heap[a]? with
    | some (JSObject.arr elems) => do
      let h2 ← elems.foldlM (fun hh e => do
          let r ← recur hh e
          pure r.1) heap
      pure (h2, v)
    | some (JSObject.obj ps) => do
      let h2 ← (ps.map Prod.fst).foldlM
          (fun hh k => unmangleKey recur a props flags hh k) heap
      pure (h2, v)
    | none => pure (heap, v)
  | _ => pure (heap, v)

/-- From the source (`Unmangler.unmangleObject`): clone the `object`
parameter unless `NoClone` is set, force `NoClone` for the recursive cases,
then rename mangled properties in place via `unmangleBody`.  Fuelled to stay
total (the source documents that the caller must avoid cycles); `none`
models fuel exhaustion. -/
def unmangleObject (fuel : Nat) (heap : Heap) (v : JSValue)
    (props : List (String × String)) (flags : Nat) : Option (Heap × JSValue) :=
  match fuel with
  | 0 => none
  | f + 1 => do
    let cloned ←
      if flags &&& UnmanglerFlags.NoClone == 0 then deepCopy (f + 1) heap v
      else pure (heap, v)
    unmangleBody
      (fun hh vv => unmangleObject f hh vv props (flags ||| UnmanglerFlags.NoClone))
      cloned.1 cloned.2 props (flags ||| UnmanglerFlags.NoClone)

/-- Every reference in the value points at address `n` or above. -/
def ValAbove (n : Nat) : JSValue → Prop
  | JSValue.ref a => n ≤ a
  | _ => True

/-- Every value stored in the object references address `n` or above. -/
def ObjAbove (n : Nat) : JSObject → Prop
  | JSObject.obj ps => ∀ kv ∈ ps, ValAbove n kv.2
  | JSObject.arr es => ∀ e ∈ es, ValAbove n e

/-- The heap region at addresses `n` and above is closed: cells there only
reference cells at `n` or above. -/
def HeapClosedAbove (n : Nat) (h : Heap) : Prop :=
  ∀ a, n ≤ a → ∀ o, h[a]? = some o → ObjAbove n o

theorem heapClosedAbove_length (h : Heap) : HeapClosedAbove h.length h := by
  intro a ha o ho
  rcases List.getElem?_eq_some_iff.mp ho with ⟨hlt, _⟩
  exact absurd hlt (Nat.not_lt.mpr ha)

theorem heapClosedAbove_append (n : Nat) (h : Heap) (o : JSObject)
    (hcl : HeapClosedAbove n h) (ho : ObjAbove n o) :
    HeapClosedAbove n (h ++ [o]) := by
  intro a ha q hq
  by_cases hlt : a < h.length
  · rw [List.getElem?_append_left hlt] at hq
    exact hcl a ha q hq
  · rw [List.getElem?_append_right (Nat.le_of_not_lt hlt)] at hq
    have hz : a - h.length = 0 := by
      rcases List.getElem?_eq_some_iff.mp hq with ⟨hl2, _⟩
      simp only [List.length_cons, List.length_nil] at hl2
      omega
    rw [hz] at hq
    simp only [List.getElem?_cons_zero] at hq
    rcases Option.some.inj hq with rfl
    exact ho

theorem getProp_mem (ps : List (String × JSValue)) (k : String) (v : JSValue)
    (h : getProp ps k = some v) : (k, v) ∈ ps := by
  induction ps with
  | nil => simp [getProp] at h
  | cons kv rest ih =>
    rcases kv with ⟨k2, v2⟩
    simp only [getProp] at h
    by_cases he : k2 = k
    · subst he
      rw [if_pos rfl] at h
      rcases Option.some.inj h with rfl
      exact List.mem_cons_self _ _
    · rw [if_neg he] at h
      exact List.mem_cons_of_mem _ (ih h)

theorem putProp_mem (ps : List (String × JSValue)) (name : String)
    (v : JSValue) (kv : String × JSValue) (h : kv ∈ putProp ps name v) :
    kv ∈ ps ∨ kv.2 = v := by
  induction ps with
  | nil =>
    simp only [putProp, List.mem_singleton] at h
    subst h
    exact Or.inr rfl
  | cons kw rest ih =>
    rcases kw with ⟨k2, w⟩
    simp only [putProp] at h
    by_cases he : k2 = name
    · rw [if_pos he] at h
      rcases List.mem_cons.mp h with he2 | hmem
      · subst he2
        exact Or.inr rfl
      · exact Or.inl (List.mem_cons_of_mem _ hmem)
    · rw [if_neg he] at h
      rcases List.mem_cons.mp h with he2 | hmem
      · subst he2
        exact Or.inl (List.mem_cons_self _ _)
      · rcases ih hmem with hmem2 | hv
        · exact Or.inl (List.mem_cons_of_mem _ hmem2)
        · exact Or.inr hv

theorem removeProp_mem (ps : List (String × JSValue)) (name : String)
    (kv : String × JSValue) (h : kv ∈ removeProp ps name) : kv ∈ ps :=
  (List.mem_filter.mp h).1

theorem heapSetProp_spec (n : Nat) (h : Heap) (a : Nat) (u : String)
    (v : JSValue) (han : n ≤ a) (hcl : HeapClosedAbove n h)
    (hv : ValAbove n v) :
    (∀ b, b < n → (heapSetProp h a u v)[b]? = h[b]?) ∧
    HeapClosedAbove n (heapSetProp h a u v) := by
  rcases hm : h[a]? with _ | o
  · simp only [heapSetProp, hm]
    exact ⟨fun b hb => by trivial, hcl⟩
  · rcases o with ps | es
    · simp only [heapSetProp, hm]
      constructor
      · intro b hb
        exact List.getElem?_set_ne (by omega)
      · intro c hc q hq
        by_cases hca : a = c
        · subst hca
          rw [List.getElem?_set_self (List.getElem?_eq_some_iff.mp hm).1] at hq
          rcases Option.some.inj hq with rfl
          have hobj := hcl a hc _ hm
          intro kv hkv
          rcases putProp_mem ps u v kv hkv with hmem | hval
          · exact hobj kv hmem
          · rw [hval]
            exact hv
        · rw [List.getElem?_set_ne hca] at hq
          exact hcl c hc q hq
    · simp only [heapSetProp, hm]
      exact ⟨fun b hb => by trivial, hcl⟩

theorem heapDelProp_spec (n : Nat) (h : Heap) (a : Nat) (u : String)
    (han : n ≤ a) (hcl : HeapClosedAbove n h) :
    (∀ b, b < n → (heapDelProp h a u)[b]? = h[b]?) ∧
    HeapClosedAbove n (heapDelProp h a u) := by
  rcases hm : h[a]? with _ | o
  · simp only [heapDelProp, hm]
    exact ⟨fun b hb => by trivial, hcl⟩
  · rcases o with ps | es
    · simp only [heapDelProp, hm]
      constructor
      · intro b hb
        exact List.getElem?_set_ne (by omega)
      · intro c hc q hq
        by_cases hca : a = c
        · subst hca
          rw [List.getElem?_set_self (List.getElem?_eq_some_iff.mp hm).1] at hq
          rcases Option.some.inj hq with rfl
          have hobj := hcl a hc _ hm
          intro kv hkv
          exact hobj kv (removeProp_mem ps u kv hkv)
        · rw [List.getElem?_set_ne hca] at hq
          exact hcl c hc q hq
    · simp only [heapDelProp, hm]
      exact ⟨fun b hb => by trivial, hcl⟩

theorem lor_noClone_and (x : Nat) :
    (x ||| UnmanglerFlags.NoClone) &&& UnmanglerFlags.NoClone ≠ 0 := by
  have he : (x ||| 8) &&& 8 = 8 := by
    apply Nat.eq_of_testBit_eq
    intro i
    rw [Nat.testBit_land, Nat.testBit_lor]
    by_cases hi : i = 3
    · subst hi
      have h2 : Nat.testBit 8 3 = true := by decide
      rw [h2]
      simp
    · have hz : Nat.testBit 8 i = false := by
        have h8 : (8 : Nat) = 2 ^ 3 := by norm_num
        rw [h8, Nat.testBit_two_pow]
        simpa using fun he2 => hi he2.symm
      rw [hz]
      simp
  show (x ||| 8) &&& 8 ≠ 0
  rw [he]
  norm_num

theorem option_bind_some {α β : Type} (x : Option α) (f : α → Option β)
    (b : β) (h : (x >>= f) = some b) : ∃ a, x = some a ∧ f a = some b := by
  cases x with
  | none => simp at h
  | some a => exact ⟨a, rfl, by simpa using h⟩

/-- The contract of `deepCopy` under which unmangling cannot touch the
original object graph: the heap only grows, the region above `n` stays
closed, the copied value references `n` or above, and the copy of a
reference is a fresh cell. -/
def DeepCopySpec (n fuel : Nat) : Prop :=
  ∀ h v h2 v2, n ≤ h.length → HeapClosedAbove n h →
    deepCopy fuel h v = some (h2, v2) →
    (∃ ext, h2 = h ++ ext) ∧ HeapClosedAbove n h2 ∧ ValAbove n v2 ∧
    (∀ a, v = JSValue.ref a → ∃ c, v2 = JSValue.ref c ∧ h.length ≤ c)

theorem deepCopy_foldl {α β : Type} (n fuel : Nat) (extract : α → JSValue)
    (rebuild : α → JSValue → β) (valOf : β → JSValue)
    (hval : ∀ x r, valOf (rebuild x r) = r) (hIH : DeepCopySpec n fuel)
    (xs : List α) :
    ∀ h acc h2 acc2, n ≤ h.length → HeapClosedAbove n h →
      (∀ b ∈ acc, ValAbove n (valOf b)) →
      List.foldlM (fun (s : Heap × List β) x => do
          let r ← deepCopy fuel s.1 (extract x)
          pure (r.1, s.2 ++ [rebuild x r.2])) (h, acc) xs = some (h2, acc2) →
      (∃ ext, h2 = h ++ ext) ∧ n ≤ h2.length ∧ HeapClosedAbove n h2 ∧
      (∀ b ∈ acc2, ValAbove n (valOf b)) := by
  induction xs with
  | nil =>
    intro h acc h2 acc2 hn hcl hacc hfold
    rw [List.foldlM_nil] at hfold
    have hp := Option.some.inj hfold
    rw [Prod.mk.injEq] at hp
    obtain ⟨rfl, rfl⟩ := hp
    exact ⟨⟨[], by simp⟩, hn, hcl, hacc⟩
  | cons x rest ih =>
    intro h acc h2 acc2 hn hcl hacc hfold
    rw [List.foldlM_cons] at hfold
    rcases option_bind_some _ _ _ hfold with ⟨init, hstep, hrest⟩
    rcases option_bind_some _ _ _ hstep with ⟨r, hdc, hpure⟩
    rcases Option.some.inj hpure with rfl
    obtain ⟨⟨ext1, hext1⟩, hcl1, hv1, _⟩ :=
      hIH h (extract x) r.1 r.2 hn hcl hdc
    have hn1 : n ≤ r.1.length := by
      rw [hext1, List.length_append]
      omega
    have hacc1 : ∀ b ∈ acc ++ [rebuild x r.2], ValAbove n (valOf b) := by
      intro b hb
      rcases List.mem_append.mp hb with hb1 | hb2
      · exact hacc b hb1
      · rcases List.mem_singleton.mp hb2 with rfl
        rw [hval]
        exact hv1
    obtain ⟨⟨ext2, hext2⟩, hn2, hcl2, hacc2⟩ :=
      ih r.1 (acc ++ [rebuild x r.2]) h2 acc2 hn1 hcl1 hacc1 hrest
    refine ⟨⟨ext1 ++ ext2, ?_⟩, hn2, hcl2, hacc2⟩
    rw [hext2, hext1, List.append_assoc]

theorem deepCopy_spec (n : Nat) : ∀ fuel, DeepCopySpec n fuel := by
  intro fuel
  induction fuel with
  | zero =>
    intro h v h2 v2 hn hcl hdc
    simp [deepCopy] at hdc
  | succ f ih =>
    intro h v h2 v2 hn hcl hdc
    match v with
    | JSValue.null | JSValue.boolean _ | JSValue.num _ | JSValue.str _ =>
      simp only [deepCopy] at hdc
      have hp := Option.some.inj hdc
      rw [Prod.mk.injEq] at hp
      obtain ⟨rfl, rfl⟩ := hp
      refine ⟨⟨[], by simp⟩, hcl, ?_, ?_⟩
      · trivial
      · intro a2 ha2
        exact JSValue.noConfusion ha2
    | JSValue.ref a =>
      rcases hm : h[a]? with _ | o
      · simp only [deepCopy, hm] at hdc
        exact Option.noConfusion hdc
      · rcases o with ps | es
        · simp only [deepCopy, hm] at hdc
          rcases option_bind_some _ _ _ hdc with ⟨r, hfold, hpure⟩
          have hp := Option.some.inj hpure
          rw [Prod.mk.injEq] at hp
          obtain ⟨rfl, rfl⟩ := hp
          obtain ⟨⟨ext1, hext1⟩, hn1, hcl1, hvals⟩ :=
            deepCopy_foldl n f Prod.snd (fun kv r2 => (kv.1, r2)) Prod.snd
              (fun x r2 => rfl) ih ps h [] r.1 r.2 hn hcl (by simp) hfold
          have hlen : h.length ≤ r.1.length := by
            rw [hext1, List.length_append]
            omega
          refine ⟨⟨ext1 ++ [JSObject.obj r.2], ?_⟩, ?_, ?_, ?_⟩
          · rw [hext1, List.append_assoc]
          · apply heapClosedAbove_append n r.1 _ hcl1
            intro kv hkv
            exact hvals kv hkv
          · exact le_trans hn hlen
          · intro a2 ha2
            exact ⟨r.1.length, rfl, hlen⟩
        · simp only [deepCopy, hm] at hdc
          rcases option_bind_some _ _ _ hdc with ⟨r, hfold, hpure⟩
          have hp := Option.some.inj hpure
          rw [Prod.mk.injEq] at hp
          obtain ⟨rfl, rfl⟩ := hp
          obtain ⟨⟨ext1, hext1⟩, hn1, hcl1, hvals⟩ :=
            deepCopy_foldl n f (fun e => e) (fun e r2 => r2) (fun e => e)
              (fun x r2 => rfl) ih es h [] r.1 r.2 hn hcl (by simp) hfold
          have hlen : h.length ≤ r.1.length := by
            rw [hext1, List.length_append]
            omega
          refine ⟨⟨ext1 ++ [JSObject.arr r.2], ?_⟩, ?_, ?_, ?_⟩
          · rw [hext1, List.append_assoc]
          · apply heapClosedAbove_append n r.1 _ hcl1
            intro e he
            exact hvals e he
          · exact le_trans hn hlen
          · intro a2 ha2
            exact ⟨r.1.length, rfl, hlen⟩

/-- A recursive unmangling call that preserves the heap below `n` and keeps
the region above `n` closed. -/
def RecurSpec (n : Nat) (recur : Heap → JSValue → Option (Heap × JSValue)) :
    Prop :=
  ∀ hh vv hh2 vv2, HeapClosedAbove n hh → ValAbove n vv →
    recur hh vv = some (hh2, vv2) →
    (∀ b, b < n → hh2[b]? = hh[b]?) ∧ HeapClosedAbove n hh2

theorem foldlM_heap_inv {α : Type} (n : Nat) (step : Heap → α → Option Heap) :
    ∀ xs : List α,
      (∀ hh x, x ∈ xs → HeapClosedAbove n hh → ∀ hh2, step hh x = some hh2 →
        (∀ b, b < n → hh2[b]? = hh[b]?) ∧ HeapClosedAbove n hh2) →
      ∀ hh hh2, HeapClosedAbove n hh → List.foldlM step hh xs = some hh2 →
        (∀ b, b < n → hh2[b]? = hh[b]?) ∧ HeapClosedAbove n hh2 := by
  intro xs
  induction xs with
  | nil =>
    intro hstep hh hh2 hcl hfold
    rw [List.foldlM_nil] at hfold
    rcases Option.some.inj hfold with rfl
    exact ⟨fun b hb => rfl, hcl⟩
  | cons x rest ih =>
    intro hstep hh hh2 hcl hfold
    rw [List.foldlM_cons] at hfold
    rcases option_bind_some _ _ _ hfold with ⟨h1, hs, hrest⟩
    obtain ⟨hp1, hcl1⟩ := hstep hh x (List.mem_cons_self _ _) hcl h1 hs
    obtain ⟨hp2, hcl2⟩ :=
      ih (fun hh3 x2 hx2 => hstep hh3 x2 (List.mem_cons_of_mem _ hx2))
        h1 hh2 hcl1 hrest
    exact ⟨fun b hb => (hp2 b hb).trans (hp1 b hb), hcl2⟩

theorem unmangleBody_value (recur : Heap → JSValue → Option (Heap × JSValue))
    (h : Heap) (v : JSValue) (props : List (String × String)) (flags : Nat)
    (h2 : Heap) (v2 : JSValue)
    (hres : unmangleBody recur h v props flags = some (h2, v2)) : v2 = v := by
  match v with
  | JSValue.null | JSValue.boolean _ | JSValue.num _ | JSValue.str _ =>
    simp only [unmangleBody] at hres
    have hp := Option.some.inj hres
    rw [Prod.mk.injEq] at hp
    exact hp.2.symm
  | JSValue.ref a =>
    rcases hm : h[a]? with _ | o
    · simp only [unmangleBody, hm] at hres
      have hp := Option.some.inj hres
      rw [Prod.mk.injEq] at hp
      exact hp.2.symm
    · rcases o with ps | es
      · simp only [unmangleBody, hm] at hres
        rcases option_bind_some _ _ _ hres with ⟨hF, _, hpure⟩
        have hp := Option.some.inj hpure
        rw [Prod.mk.injEq] at hp
        exact hp.2.symm
      · simp only [unmangleBody, hm] at hres
        rcases option_bind_some _ _ _ hres with ⟨hF, _, hpure⟩
        have hp := Option.some.inj hpure
        rw [Prod.mk.injEq] at hp
        exact hp.2.symm

theorem unmangleKey_spec (n : Nat)
    (recur : Heap → JSValue → Option (Heap × JSValue))
    (hrec : RecurSpec n recur) (a : Nat) (props : List (String × String))
    (flags : Nat) (hh : Heap) (k : String) (hh2 : Heap) (han : n ≤ a)
    (hcl : HeapClosedAbove n hh)
    (hres : unmangleKey recur a props flags hh k = some hh2) :
    (∀ b, b < n → hh2[b]? = hh[b]?) ∧ HeapClosedAbove n hh2 := by
  have hrec1 : ∀ hh3 value r, HeapClosedAbove n hh3 → ValAbove n value →
      (do
        let r2 ← recur hh3 value
        pure r2.1) = some r →
      (∀ b, b < n → r[b]? = hh3[b]?) ∧ HeapClosedAbove n r := by
    intro hh3 value r hcl3 hval3 hbind
    rcases option_bind_some _ _ _ hbind with ⟨r2, hr2, hpure⟩
    rcases Option.some.inj hpure with rfl
    exact hrec hh3 value r2.1 r2.2 hcl3 hval3 hr2
  rcases hm : hh[a]? with _ | o
  · simp only [unmangleKey, hm] at hres
    rcases Option.some.inj hres with rfl
    exact ⟨fun b hb => rfl, hcl⟩
  · rcases o with cur | es
    · have hobj2 := hcl a han _ hm
      rcases hg : getProp cur k with _ | value
      · simp only [unmangleKey, hm, hg] at hres
        rcases Option.some.inj hres with rfl
        exact ⟨fun b hb => rfl, hcl⟩
      · have hval : ValAbove n value :=
          hobj2 (k, value) (getProp_mem cur k value hg)
        rcases hu : lookupName props k with _ | u
        · simp only [unmangleKey, hm, hg, hu] at hres
          by_cases hra :
              (flags &&& UnmanglerFlags.RecurseAll ==
                UnmanglerFlags.RecurseAll) = true
          · rw [if_pos hra] at hres
            exact hrec1 hh value hh2 hcl hval hres
          · rw [if_neg hra] at hres
            rcases Option.some.inj hres with rfl
            exact ⟨fun b hb => rfl, hcl⟩
        · simp only [unmangleKey, hm, hg, hu] at hres
          by_cases hue : u = ""
          · rw [if_pos hue] at hres
            by_cases hra :
                (flags &&& UnmanglerFlags.RecurseAll ==
                  UnmanglerFlags.RecurseAll) = true
            · rw [if_pos hra] at hres
              exact hrec1 hh value hh2 hcl hval hres
            · rw [if_neg hra] at hres
              rcases Option.some.inj hres with rfl
              exact ⟨fun b hb => rfl, hcl⟩
          · rw [if_neg hue] at hres
            by_cases hku : k = u
            · rw [if_pos hku] at hres
              by_cases hrc :
                  (flags &&& UnmanglerFlags.Recurse != 0) = true
              · rw [if_pos hrc] at hres
                exact hrec1 hh value hh2 hcl hval hres
              · rw [if_neg hrc] at hres
                rcases Option.some.inj hres with rfl
                exact ⟨fun b hb => rfl, hcl⟩
            · rw [if_neg hku] at hres
              obtain ⟨hsp, hscl⟩ :=
                heapSetProp_spec n hh a u value han hcl hval
              by_cases hpo :
                  (flags &&& UnmanglerFlags.PreserveOriginal == 0) = true
              · rw [if_pos hpo] at hres
                obtain ⟨hdp, hdcl⟩ :=
                  heapDelProp_spec n (heapSetProp hh a u value) a k han hscl
                have hlow : ∀ b, b < n →
                    (heapDelProp (heapSetProp hh a u value) a k)[b]? =
                      hh[b]? :=
                  fun b hb => (hdp b hb).trans (hsp b hb)
                by_cases hrc :
                    (flags &&& UnmanglerFlags.Recurse != 0) = true
                · rw [if_pos hrc] at hres
                  obtain ⟨hp2, hcl2⟩ := hrec1 _ value hh2 hdcl hval hres
                  exact ⟨fun b hb => (hp2 b hb).trans (hlow b hb), hcl2⟩
                · rw [if_neg hrc] at hres
                  rcases Option.some.inj hres with rfl
                  exact ⟨hlow, hdcl⟩
              · rw [if_neg hpo] at hres
                by_cases hrc :
                    (flags &&& UnmanglerFlags.Recurse != 0) = true
                · rw [if_pos hrc] at hres
                  obtain ⟨hp2, hcl2⟩ := hrec1 _ value hh2 hscl hval hres
                  exact ⟨fun b hb => (hp2 b hb).trans (hsp b hb), hcl2⟩
                · rw [if_neg hrc] at hres
                  rcases Option.some.inj hres with rfl
                  exact ⟨hsp, hscl⟩
    · simp only [unmangleKey, hm] at hres
      rcases Option.some.inj hres with rfl
      exact ⟨fun b hb => rfl, hcl⟩

theorem unmangleBody_spec (n : Nat)
    (recur : Heap → JSValue → Option (Heap × JSValue))
    (hrec : RecurSpec n recur) (h : Heap) (v : JSValue)
    (props : List (String × String)) (flags : Nat) (h2 : Heap) (v2 : JSValue)
    (hcl : HeapClosedAbove n h) (hv : ValAbove n v)
    (hres : unmangleBody recur h v props flags = some (h2, v2)) :
    (∀ b, b < n → h2[b]? = h[b]?) ∧ HeapClosedAbove n h2 := by
  match v with
  | JSValue.null | JSValue.boolean _ | JSValue.num _ | JSValue.str _ =>
    simp only [unmangleBody] at hres
    have hp := Option.some.inj hres
    rw [Prod.mk.injEq] at hp
    obtain ⟨rfl, rfl⟩ := hp
    exact ⟨fun b hb => rfl, hcl⟩
  | JSValue.ref a =>
    have han : n ≤ a := hv
    rcases hm : h[a]? with _ | o
    · simp only [unmangleBody, hm] at hres
      have hp := Option.some.inj hres
      rw [Prod.mk.injEq] at hp
      obtain ⟨rfl, rfl⟩ := hp
      exact ⟨fun b hb => rfl, hcl⟩
    · rcases o with ps | es
      · simp only [unmangleBody, hm] at hres
        rcases option_bind_some _ _ _ hres with ⟨hF, hfold, hpure⟩
        have hp := Option.some.inj hpure
        rw [Prod.mk.injEq] at hp
        obtain ⟨rfl, rfl⟩ := hp
        exact foldlM_heap_inv n
          (fun hh k => unmangleKey recur a props flags hh k)
          (ps.map Prod.fst)
          (fun hh x hx hcl2 hh2 hstep =>
            unmangleKey_spec n recur hrec a props flags hh x hh2 han hcl2
              hstep)
          h hF hcl hfold
      · simp only [unmangleBody, hm] at hres
        rcases option_bind_some _ _ _ hres with ⟨hF, hfold, hpure⟩
        have hp := Option.some.inj hpure
        rw [Prod.mk.injEq] at hp
        obtain ⟨rfl, rfl⟩ := hp
        have hobj2 := hcl a han _ hm
        refine foldlM_heap_inv n
          (fun hh e => do
            let r ← recur hh e
            pure r.1) es ?_ h hF hcl hfold
        intro hh e he hcl2 hh2 hstep
        rcases option_bind_some _ _ _ hstep with ⟨r, hr, hpure2⟩
        rcases Option.some.inj hpure2 with rfl
        exact hrec hh e r.1 r.2 hcl2 (hobj2 e he) hr

/-- `unmangleObject` run with `NoClone` already set preserves the heap
below `n` and keeps the region above `n` closed, whenever the heap above `n`
is closed and the value only references `n` or above. -/
def UnmangleObjSpec (n fuel : Nat) : Prop :=
  ∀ h v props flags h2 v2,
    flags &&& UnmanglerFlags.NoClone ≠ 0 → HeapClosedAbove n h →
    ValAbove n v → unmangleObject fuel h v props flags = some (h2, v2) →
    (∀ b, b < n → h2[b]? = h[b]?) ∧ HeapClosedAbove n h2

theorem unmangleObjSpec_all (n : Nat) : ∀ fuel, UnmangleObjSpec n fuel := by
  intro fuel
  induction fuel with
  | zero =>
    intro h v props flags h2 v2 hfl hcl hv hres
    simp [unmangleObject] at hres
  | succ f ih =>
    intro h v props flags h2 v2 hfl hcl hv hres
    simp only [unmangleObject] at hres
    rw [if_neg (by simpa using hfl)] at hres
    rcases option_bind_some _ _ _ hres with ⟨cl, hclv, hbody⟩
    rcases Option.some.inj hclv with rfl
    have hrec : RecurSpec n
        (fun hh vv =>
          unmangleObject f hh vv props (flags ||| UnmanglerFlags.NoClone)) :=
      fun hh vv hh2 vv2 hcl3 hv3 hr =>
        ih hh vv props (flags ||| UnmanglerFlags.NoClone) hh2 vv2
          (lor_noClone_and flags) hcl3 hv3 hr
    exact unmangleBody_spec n _ hrec h v props
      (flags ||| UnmanglerFlags.NoClone) h2 v2 hcl hv hbody

/-- C10: `Unmangler.unmangleObject` on an object reference: without the
`NoClone` flag it deep-copies first and mutates only the copy — every cell
of the input heap is left unchanged and the returned reference is a fresh
cell, distinct from the one passed in; with `NoClone` it returns the very
same reference it was given (mutating in place). -/
theorem unmangleObject_clone_semantics (fuel : Nat) (h : Heap) (a : Nat)
    (props : List (String × String)) (flags : Nat) (h2 : Heap) (v2 : JSValue)
    (ha : a < h.length) :
    (flags &&& UnmanglerFlags.NoClone = 0 →
      unmangleObject fuel h (JSValue.ref a) props flags = some (h2, v2) →
      (∀ b, b < h.length → h2[b]? = h[b]?) ∧
      (∃ c, v2 = JSValue.ref c ∧ h.length ≤ c) ∧ v2 ≠ JSValue.ref a) ∧
    (flags &&& UnmanglerFlags.NoClone ≠ 0 →
      ∀ v : JSValue, unmangleObject fuel h v props flags = some (h2, v2) →
      v2 = v) := by
  constructor
  · intro hnc hres
    cases fuel with
    | zero => simp [unmangleObject] at hres
    | succ f =>
      simp only [unmangleObject] at hres
      rw [if_pos (by simpa using hnc)] at hres
      rcases option_bind_some _ _ _ hres with ⟨cl, hdc, hbody⟩
      obtain ⟨⟨ext1, hext1⟩, hcldc, hvv, hfresh⟩ :=
        deepCopy_spec h.length (f + 1) h (JSValue.ref a) cl.1 cl.2 le_rfl
          (heapClosedAbove_length h) hdc
      obtain ⟨c, hc, hcge⟩ := hfresh a rfl
      have hrec : RecurSpec h.length
          (fun hh vv =>
            unmangleObject f hh vv props
              (flags ||| UnmanglerFlags.NoClone)) :=
        fun hh vv hh2 vv2 hcl3 hv3 hr =>
          unmangleObjSpec_all h.length f hh vv props
            (flags ||| UnmanglerFlags.NoClone) hh2 vv2
            (lor_noClone_and flags) hcl3 hv3 hr
      obtain ⟨hlow, hcl2⟩ :=
        unmangleBody_spec h.length _ hrec cl.1 cl.2 props
          (flags ||| UnmanglerFlags.NoClone) h2 v2 hcldc hvv hbody
      have hv2 : v2 = JSValue.ref c := by
        rw [unmangleBody_value _ cl.1 cl.2 props _ h2 v2 hbody, hc]
      refine ⟨?_, ⟨c, hv2, hcge⟩, ?_⟩
      · intro b hb
        rw [hlow b hb, hext1, List.getElem?_append_left hb]
      · rw [hv2]
        intro heq
        have hca := JSValue.ref.inj heq
        omega
  · intro hnc v hres
    cases fuel with
    | zero => simp [unmangleObject] at hres
    | succ f =>
      simp only [unmangleObject] at hres
      rw [if_neg (by simpa using hnc)] at hres
      rcases option_bind_some _ _ _ hres with ⟨cl, hclv, hbody⟩
      rcases Option.some.inj hclv with rfl
      exact unmangleBody_value _ h v props _ h2 v2 hbody

theorem unmangleObject_clone_semantics_witness :
    (([JSObject.obj [("a", JSValue.num 1)],
       JSObject.obj [("alpha", JSValue.num 1)]] : Heap))[0]? =
      (([JSObject.obj [("a", JSValue.num 1)]] : Heap))[0]? ∧
    JSValue.ref 1 ≠ JSValue.ref 0 ∧
    JSValue.ref 0 = JSValue.ref 0 := by
  have hmain := unmangleObject_clone_semantics 5
    [JSObject.obj [("a", JSValue.num 1)]] 0 [("a", "alpha")] 0
    [JSObject.obj [("a", JSValue.num 1)],
     JSObject.obj [("alpha", JSValue.num 1)]]
    (JSValue.ref 1) (by decide)
  have hclone := hmain.1 (by decide) (by decide)
  have hnc := (unmangleObject_clone_semantics 5
    [JSObject.obj [("a", JSValue.num 1)]] 0 [("a", "alpha")]
    UnmanglerFlags.NoClone [JSObject.obj [("alpha", JSValue.num 1)]]
    (JSValue.ref 0) (by decide)).2 (by decide) (JSValue.ref 0) (by decide)
  exact ⟨hclone.1 0 (by decide), hclone.2.2, hnc⟩

end CommonLibs
